import Mathlib

/-!
Shallow embedding of the chunked-translation pipeline implemented by
`OptimizedSubtitleConverter` in `src/tools/converter.py`, together with
theorems settling the specification claims about it.

Conventions of the embedding:
* Python strings are Lean `String`s; positions and lengths count Unicode
  code points, exactly as Python `len`/slicing do.  Character-level work
  happens on `String.data : List Char`.
* Python `str.strip()` is modelled by `pyStrip` (drop whitespace from both
  ends, using `Char.isWhitespace`, which covers the space, tab, CR and LF
  characters that occur in this pipeline's data).
* The regular expressions used by the source are all of three simple shapes
  (a literal; a literal head followed by `[^\]]*`/`[^\]]+` up to `]`;
  `\n`-run patterns).  Each `re.sub`/`re.search` call is modelled by a
  dedicated scanner that walks the character list left to right exactly the
  way the `re` engine resolves these patterns: try a match at each position,
  on success continue after the match, otherwise advance one character.
  Scanners that can skip more than one character per step take an explicit
  fuel argument (always called with fuel > length, so the fallback branch is
  unreachable); this keeps every definition structurally recursive and
  executable by `decide`/`rfl`.
* The external completion API is an oracle: `ApiResult` is the outcome of
  one HTTP attempt (`ok` carries the returned message content, `err` the
  exception text), and the processor receives a function from chunk index
  and attempt number to that outcome.
-/

/-- Python `str.strip()` on a character list: whitespace removed from both ends. -/
def trimChars (cs : List Char) : List Char :=
  ((cs.dropWhile Char.isWhitespace).reverse.dropWhile Char.isWhitespace).reverse

/-- Python `str.strip()` on strings. -/
def pyStrip (s : String) : String :=
  String.mk (trimChars s.data)

/-- Helper for `pyWords`: accumulate the current word (reversed) while walking the text. -/
def pyWordsAux : List Char → List Char → List String
  | acc, [] => if acc.isEmpty then [] else [String.mk acc.reverse]
  | acc, c :: cs =>
    if c.isWhitespace then
      if acc.isEmpty then pyWordsAux [] cs
      else String.mk acc.reverse :: pyWordsAux [] cs
    else pyWordsAux (c :: acc) cs

/-- Python `text.split()` (no argument): whitespace-delimited words, empties dropped. -/
def pyWords (s : String) : List String :=
  pyWordsAux [] s.data

/-- Python `sep.join(ws)`. -/
def pyJoin (sep : String) : List String → String
  | [] => ""
  | [w] => w
  | w :: x :: rest => w ++ sep ++ pyJoin sep (x :: rest)

/-- Fueled grouping of a list into consecutive blocks of `n` elements
(the final block may be shorter).  Models the `range(0, len(words), chunk_size)`
loop of `split_text` for a positive step. -/
def chunksOfF {α : Type} : Nat → Nat → List α → List (List α)
  | 0, _, _ => []
  | fuel + 1, n, ws => if ws.isEmpty then [] else ws.take n :: chunksOfF fuel n (ws.drop n)

/-- Grouping into blocks of `n` words, with enough fuel to consume the whole list. -/
def chunksOf {α : Type} (n : Nat) (ws : List α) : List (List α) :=
  chunksOfF (ws.length + 1) n ws

/-- Embedding of `split_text` (converter.py lines 242-257).  The config value
`chunk_size` is an `Int` as on the Python side.  `chunk_size = 0` makes
`range(0, len(words), 0)` raise `ValueError`, modelled by `none`;
a negative `chunk_size` makes the `range` empty, so no chunks are produced;
a positive `chunk_size` groups the words and rejoins each group with single
spaces. -/
def split_text (chunk_size : Int) (text : String) : Option (List String) :=
  if chunk_size = 0 then none
  else if chunk_size < 0 then some []
  else some ((chunksOf chunk_size.toNat (pyWords text)).map (fun g => pyJoin " " g))

/-- Split a character list at the first `]`: returns the part before it and the
part after it, or `none` when there is no `]`. -/
def splitAtRBracket : List Char → Option (List Char × List Char)
  | [] => none
  | c :: cs =>
    if c = ']' then some ([], cs)
    else
      match splitAtRBracket cs with
      | some (r, rest) => some (c :: r, rest)
      | none => none

/-- Scanner for `re.search` with a pattern of shape `head [^\]]{minLen,} \]`
(where `head` is the literal `p :: hr`): returns the content between the head
and the first following `]` for the leftmost full match. -/
def findBracket (p : Char) (hr : List Char) (minLen : Nat) : List Char → Option (List Char)
  | [] => none
  | c :: cs =>
    if (p :: hr).isPrefixOf (c :: cs) then
      match splitAtRBracket (cs.drop hr.length) with
      | some (inner, _) =>
        if minLen ≤ inner.length then some inner else findBracket p hr minLen cs
      | none => findBracket p hr minLen cs
    else findBracket p hr minLen cs

/-- Fueled scanner for `re.sub(pattern, repl, s)` where the pattern is the
literal `p :: pat` (also models Python `str.replace`). -/
def replaceLitF (p : Char) (pat repl : List Char) : Nat → List Char → List Char
  | 0, cs => cs
  | _ + 1, [] => []
  | fuel + 1, c :: cs =>
    if (p :: pat).isPrefixOf (c :: cs) then repl ++ replaceLitF p pat repl fuel (cs.drop pat.length)
    else c :: replaceLitF p pat repl fuel cs

/-- Replace every occurrence of the literal `p :: pat` by `repl`. -/
def replaceLit (p : Char) (pat repl : List Char) (cs : List Char) : List Char :=
  replaceLitF p pat repl (cs.length + 1) cs

/-- Remove every occurrence of the literal `p :: pat` (an `re.sub` with empty
replacement). -/
def subLit (p : Char) (pat : List Char) (cs : List Char) : List Char :=
  replaceLit p pat [] cs

/-- Fueled scanner for `re.sub` with a pattern of shape
`head [^\]]{minLen,} \]`: every leftmost-first match is removed, a failed match
position advances by one character. -/
def subBracketF (p : Char) (hr : List Char) (minLen : Nat) : Nat → List Char → List Char
  | 0, cs => cs
  | _ + 1, [] => []
  | fuel + 1, c :: cs =>
    if (p :: hr).isPrefixOf (c :: cs) then
      match splitAtRBracket (cs.drop hr.length) with
      | some (inner, rest) =>
        if minLen ≤ inner.length then subBracketF p hr minLen fuel rest
        else c :: subBracketF p hr minLen fuel cs
      | none => c :: subBracketF p hr minLen fuel cs
    else c :: subBracketF p hr minLen fuel cs

/-- Remove every match of `head [^\]]{minLen,} \]` from a character list. -/
def subBracket (p : Char) (hr : List Char) (minLen : Nat) (cs : List Char) : List Char :=
  subBracketF p hr minLen (cs.length + 1) cs

/-- Characters of the incompleteness-marker head `不完整句子:` (after the `[`). -/
def incompleteHead : List Char := "不完整句子:".data

/-- Characters of the end-of-document marker head `文件末尾不完整句子:` (after the `[`). -/
def endIncompleteHead : List Char := "文件末尾不完整句子:".data

/-- Embedding of `strip_content` (converter.py lines 148-150). -/
def strip_content (content : String) : String :=
  pyStrip content

/-- Embedding of `extract_incomplete_sentence` (converter.py lines 372-400).
The regex `\[不完整句子:\s*([^\]]+)\]` matches wherever the literal head is
followed by at least one non-`]` character and then `]`; the reported group,
after `.strip()`, equals the stripped text between head and `]` (the greedy
`\s*` only moves whitespace out of the group, which `.strip()` removes
anyway).  On a match, the fragment is that stripped text and all matches are
removed from the content, which is then stripped. -/
def extract_incomplete_sentence (content : String) : String × String :=
  if content = "" then (content, "")
  else
    match findBracket '[' incompleteHead 1 content.data with
    | some inner =>
      (pyStrip (String.mk (subBracket '[' incompleteHead 1 content.data)),
        pyStrip (String.mk inner))
    | none => (content, "")

/-- Outcome of a single completion-API attempt: the message content on HTTP 200
with well-formed choices, otherwise the text of the raised exception. -/
inductive ApiResult : Type
  | ok (content : String)
  | err (msg : String)
deriving DecidableEq, Repr

/-- Failed-chunk record appended to `self.failed_chunks`
(converter.py lines 234-239). -/
structure FailedChunk : Type where
  index : Nat
  content : String
  error : String
deriving DecidableEq, Repr

/-- Retry loop of `process_chunk_async` (converter.py lines 152-240):
`remaining` attempts are left and `attempt` is the 0-based index of the next
one.  A successful attempt returns the stripped message content; when the last
attempt fails the placeholder is returned together with the failed-chunk
record.  The third component counts the attempts actually made.  `none` is the
`retry_attempts = 0` case in which the Python `for` body never runs and the
function falls through returning `None`. -/
def process_chunk_loop (api1 : Nat → ApiResult) (chunk : String) (chunk_index : Nat) :
    Nat → Nat → Option (String × Option FailedChunk × Nat)
  | 0, _ => none
  | r + 1, attempt =>
    match api1 attempt with
    | ApiResult.ok c => some (strip_content (pyStrip c), none, attempt + 1)
    | ApiResult.err e =>
      if r = 0 then
        some ("# 处理失败的内容\n\n" ++ chunk, some ⟨chunk_index, chunk, e⟩, attempt + 1)
      else process_chunk_loop api1 chunk chunk_index r (attempt + 1)

/-- Embedding of `process_chunk_async` for one chunk, starting at attempt 0. -/
def process_chunk_async (retry_attempts : Nat) (api1 : Nat → ApiResult)
    (chunk : String) (chunk_index : Nat) : Option (String × Option FailedChunk × Nat) :=
  process_chunk_loop api1 chunk chunk_index retry_attempts 0

/-- Everything one iteration of the `process_chunks_sequentially` loop produces
for its chunk: the augmented input actually sent, the content appended to
`processed_chunks`, the carry-over fragment after the step, the failed-chunk
record (if the step exhausted its retries) and the number of API attempts
made. -/
structure StepTrace : Type where
  augmented : String
  stored : String
  fragOut : String
  failedRec : Option FailedChunk
  attempts : Nat
deriving DecidableEq, Repr

/-- Input text of a step: the carried fragment, when non-empty, is prepended
to the raw chunk with a single separating space (converter.py lines 323-326). -/
def augmentedInput (fragIn chunk : String) : String :=
  if fragIn = "" then chunk else fragIn ++ " " ++ chunk

/-- One iteration of the loop in `process_chunks_sequentially`
(converter.py lines 319-362): prepend the carried fragment (single separating
space) when non-empty, run the chunk through `process_chunk_async`, then run
`extract_incomplete_sentence` on whatever came back (also on the failure
placeholder).  The `none` branch is the `except` handler (reachable only for
`retry_attempts = 0`): placeholder stored, fragment reset, no record. -/
def runStep (retry : Nat) (api1 : Nat → ApiResult) (idx : Nat) (fragIn : String)
    (chunk : String) : StepTrace :=
  match process_chunk_async retry api1 (augmentedInput fragIn chunk) idx with
  | some (content, rec, att) =>
    ⟨augmentedInput fragIn chunk, (extract_incomplete_sentence content).1,
      (extract_incomplete_sentence content).2, rec, att⟩
  | none =>
    ⟨augmentedInput fragIn chunk,
      "# 处理失败的内容\n\n" ++ augmentedInput fragIn chunk, "", none, 0⟩

/-- The sequential pass over the chunk list, threading the carried fragment. -/
def processTrace (retry : Nat) (api : Nat → Nat → ApiResult) :
    Nat → String → List String → List StepTrace
  | _, _, [] => []
  | idx, fragIn, c :: rest =>
    let st := runStep retry (api idx) idx fragIn c
    st :: processTrace retry api (idx + 1) st.fragOut rest

/-- Python `processed_chunks[-1] += suffix` on a list value. -/
def appendToLast (suffix : String) : List String → List String
  | [] => []
  | [x] => [x ++ suffix]
  | x :: y :: rest => x :: appendToLast suffix (y :: rest)

/-- Embedding of `process_chunks_sequentially` (converter.py lines 311-370):
the processed contents in order, plus the accumulated failed-chunk records;
a fragment still pending after the last chunk is appended to the last stored
output under the `[文件末尾不完整句子: ...]` tag. -/
def process_chunks_sequentially (retry : Nat) (api : Nat → Nat → ApiResult)
    (chunks : List String) : List String × List FailedChunk :=
  let traces := processTrace retry api 0 "" chunks
  let finc :=
    match traces.getLast? with
    | some t => t.fragOut
    | none => ""
  if finc = "" then
    (traces.map (fun st => st.stored), traces.filterMap (fun st => st.failedRec))
  else
    (appendToLast ("\n\n[文件末尾不完整句子: " ++ finc ++ "]") (traces.map (fun st => st.stored)),
      traces.filterMap (fun st => st.failedRec))

/-- Length of the run of `\n` characters at the head of the list. -/
def nlRun : List Char → Nat
  | c :: cs => if c = '\n' then nlRun cs + 1 else 0
  | [] => 0

/-- Length of the run of `#` characters at the head of the list. -/
def hashRun : List Char → Nat
  | c :: cs => if c = '#' then hashRun cs + 1 else 0
  | [] => 0

/-- Fueled scanner for `re.sub(r'\n(#{1,6}\s)', r'\n\n\1', s)`: a `\n` followed
by a full run of 1-6 `#` and then a whitespace character gets one extra `\n`
inserted in front; the scan continues after the consumed whitespace
character. -/
def headingFixF : Nat → List Char → List Char
  | 0, cs => cs
  | _ + 1, [] => []
  | fuel + 1, c :: cs =>
    if c = '\n' then
      let m := hashRun cs
      if 1 ≤ m ∧ m ≤ 6 then
        match (cs.drop m).head? with
        | some w =>
          if w.isWhitespace then
            '\n' :: '\n' :: (cs.take m ++ w :: headingFixF fuel (cs.drop (m + 1)))
          else c :: headingFixF fuel cs
        | none => c :: headingFixF fuel cs
      else c :: headingFixF fuel cs
    else c :: headingFixF fuel cs

/-- Markdown-heading spacing pass of `final_cleanup` (converter.py line 502). -/
def headingFix (cs : List Char) : List Char :=
  headingFixF (cs.length + 1) cs

/-- Fueled scanner for `re.sub(r'\n{3,}', '\n\n', s)`: every maximal run of
three or more newlines becomes exactly two. -/
def collapseNewlinesF : Nat → List Char → List Char
  | 0, cs => cs
  | _ + 1, [] => []
  | fuel + 1, c :: cs =>
    if c = '\n' then
      if 3 ≤ nlRun cs + 1 then '\n' :: '\n' :: collapseNewlinesF fuel (cs.drop (nlRun cs))
      else c :: collapseNewlinesF fuel cs
    else c :: collapseNewlinesF fuel cs

/-- Blank-line normalisation pass of `final_cleanup` (converter.py line 508). -/
def collapseNewlines (cs : List Char) : List Char :=
  collapseNewlinesF (cs.length + 1) cs

/-- Embedding of `final_cleanup` (converter.py lines 440-521): remove the six
format-marker patterns in source order, remove bracketed spans with 100+
non-`]` characters, insert blank lines before headings, collapse 3+ newlines
to 2 and strip the ends. -/
def final_cleanup (content : String) : String :=
  let cs := content.data
  let cs := subLit '[' "英文整理段落]".data cs
  let cs := subLit '[' "对应中文翻译]".data cs
  let cs := subLit '[' "如有不完整句子]".data cs
  let cs := subBracket '[' incompleteHead 0 cs
  let cs := subBracket '[' endIncompleteHead 0 cs
  let cs := subLit '[' "不完整句子]".data cs
  let cs := subBracket '[' [] 100 cs
  let cs := headingFix cs
  let cs := collapseNewlines cs
  pyStrip (String.mk cs)

/-- The `chunk and chunk.strip()` filter of `merge_content`
(converter.py line 412). -/
def merge_valid (chunks : List String) : List String :=
  chunks.filter (fun c => c != "" && pyStrip c != "")

/-- The joining loop of `merge_content` (converter.py lines 420-427): `acc`
is the content built so far; for every further chunk the current length is
recorded before appending the blank-line separator and the chunk. -/
def merge_loop (acc : String) : List String → String × List Nat
  | [] => (acc, [])
  | c :: rest =>
    let r := merge_loop (acc ++ "\n\n" ++ c) rest
    (r.1, acc.length :: r.2)

/-- Merged document and seam offsets before `final_cleanup` runs. -/
def merge_raw (chunks : List String) : String × List Nat :=
  match merge_valid chunks with
  | [] => ("", [])
  | c :: rest => merge_loop c rest

/-- Embedding of `merge_content` (converter.py lines 402-438): the cleaned
merged document together with the seam offsets recorded while joining. -/
def merge_content (chunks : List String) : String × List Nat :=
  (final_cleanup (merge_raw chunks).1, (merge_raw chunks).2)

/-- Offset `p` sits directly on a blank-line join of `doc`: the two characters
starting at `p` are the `\n\n` separator. -/
def blankJoinAt (doc : String) (p : Nat) : Prop :=
  ((doc.data.drop p).take 2 = ['\n', '\n'])

instance (doc : String) (p : Nat) : Decidable (blankJoinAt doc p) := by
  unfold blankJoinAt; infer_instance

/-- Fueled scanner for `re.split(r'\n\n+', content)`: pieces between maximal
runs of two or more newlines (`acc` holds the current piece, reversed). -/
def splitParasF : Nat → List Char → List Char → List (List Char)
  | 0, acc, cs => [acc.reverse ++ cs]
  | _ + 1, acc, [] => [acc.reverse]
  | fuel + 1, acc, c :: cs =>
    if c = '\n' ∧ 1 ≤ nlRun cs then
      acc.reverse :: splitParasF fuel [] (cs.drop (nlRun cs))
    else splitParasF fuel (c :: acc) cs

/-- Split a character list on runs of two or more newlines. -/
def splitParas (cs : List Char) : List (List Char) :=
  splitParasF (cs.length + 1) [] cs

/-- Leftmost occurrence of `pat` in the list, reporting the absolute index
carried in `idx`. -/
def findSubAux (pat : List Char) : List Char → Nat → Option Nat
  | [], idx => if pat.isEmpty then some idx else none
  | c :: cs, idx => if pat.isPrefixOf (c :: cs) then some idx else findSubAux pat cs (idx + 1)

/-- Python `content.find(pat, start)`; `none` models the `-1` result. -/
def pyFindFrom (cs pat : List Char) (start : Nat) : Option Nat :=
  if start ≤ cs.length then findSubAux pat (cs.drop start) start else none

/-- Python `needle in hay` on character lists (substring test). -/
def containsSub (hay needle : List Char) : Bool :=
  (findSubAux needle hay 0).isSome

/-- The position-computing loop of `extract_boundary_context`
(converter.py lines 587-601): each paragraph is located with
`content.find(para, current_pos)` (falling back to `current_pos` on `-1`)
and contributes its `(start, end)` span. -/
def paraPositionsAux (cs : List Char) : List (List Char) → Nat → List (Nat × Nat)
  | [], _ => []
  | p :: rest, current =>
    let s := (pyFindFrom cs p current).getD current
    (s, s + p.length) :: paraPositionsAux cs rest (s + p.length)

/-- Index of the first paragraph whose end reaches `split_position`
(converter.py lines 597-599); `none` models `split_para_idx = -1`. -/
def firstEndGEAux (split_position : Nat) : List (Nat × Nat) → Nat → Option Nat
  | [], _ => none
  | q :: rest, i =>
    if split_position ≤ q.2 then some i else firstEndGEAux split_position rest (i + 1)

/-- Embedding of `extract_boundary_context` (converter.py lines 571-624):
window of the paragraph before the seam's paragraph plus up to three
paragraphs after it, as `(window text, start offset, end offset)`. -/
def extract_boundary_context (content : String) (split_position : Nat) :
    String × Nat × Nat :=
  let cs := content.data
  let positions := paraPositionsAux cs (splitParas cs) 0
  let splitParaIdx := (firstEndGEAux split_position positions 0).getD (positions.length - 1)
  let startIdx := splitParaIdx - 1
  let endIdx := min positions.length (splitParaIdx + 3)
  let startPos := (positions.getD startIdx (0, 0)).1
  let endPos := (positions.getD (endIdx - 1) (0, 0)).2
  (String.mk ((cs.drop startPos).take (endPos - startPos)), startPos, endPos)

/-- The cleaning applied to a model-returned boundary fix inside
`apply_boundary_fix` (converter.py lines 708-713): strip, replace the
`---SPLIT_POINT---` marker by a blank line, collapse 3+ newlines, strip. -/
def cleanedFix (fixed_content : String) : String :=
  pyStrip (String.mk (collapseNewlines
    (replaceLit '-' "--SPLIT_POINT---".data "\n\n".data (trimChars fixed_content.data))))

/-- Embedding of `apply_boundary_fix` (converter.py lines 697-718): splice the
cleaned fix over `content[start_pos:end_pos]`; an empty (falsy) fix leaves the
document unchanged. -/
def apply_boundary_fix (content : String) (start_pos end_pos : Nat)
    (fixed_content : String) : String :=
  if fixed_content = "" then content
  else
    String.mk (content.data.take start_pos ++ (cleanedFix fixed_content).data
      ++ content.data.drop end_pos)

/-- One iteration of the loop in `optimize_boundaries_async`
(converter.py lines 744-761) for the seam entry `(original index, offset)`:
extract the window, consult the repair oracle (the outcome of
`optimize_single_boundary_async`, `none` when all its retries fail), and
splice the fix in only on a successful, non-empty result. -/
def optimize_boundary_step (oracle : Nat → Option String) (content : String)
    (entry : Nat × Nat) : String :=
  match oracle entry.1 with
  | some fixed =>
    if fixed ≠ "" then
      apply_boundary_fix content (extract_boundary_context content entry.2).2.1
        (extract_boundary_context content entry.2).2.2 fixed
    else content
  | none => content

/-- The seam-processing fold of `optimize_boundaries_async`. -/
def optimize_boundaries_loop (oracle : Nat → Option String) (content : String)
    (entries : List (Nat × Nat)) : String :=
  entries.foldl (fun acc e => optimize_boundary_step oracle acc e) content

/-- Stable descending insertion by the second component, modelling
`sorted(..., key=lambda x: x[1], reverse=True)`. -/
def insertDesc (x : Nat × Nat) : List (Nat × Nat) → List (Nat × Nat)
  | [] => [x]
  | y :: ys => if x.2 ≤ y.2 then y :: insertDesc x ys else x :: y :: ys

/-- Stable descending sort by the second component. -/
def sortDescBySnd (l : List (Nat × Nat)) : List (Nat × Nat) :=
  l.foldl (fun acc x => insertDesc x acc) []

/-- Embedding of `optimize_boundaries_async` (converter.py lines 720-765):
process the recorded seams in descending offset order, splicing each
successful repair into the document. -/
def optimize_boundaries_async (oracle : Nat → Option String) (content : String)
    (split_positions : List Nat) : String :=
  if split_positions = [] then content
  else optimize_boundaries_loop oracle content (sortDescBySnd split_positions.enum)

/-! ### Helper lemmas about the sequential processor -/

theorem processTrace_length (retry : Nat) (api : Nat → Nat → ApiResult) :
    ∀ (chunks : List String) (idx : Nat) (frag : String),
      (processTrace retry api idx frag chunks).length = chunks.length := by
  intro chunks
  induction chunks with
  | nil => intro idx frag; rfl
  | cons c rest ih => intro idx frag; simp [processTrace, ih]

theorem processTrace_get (retry : Nat) (api : Nat → Nat → ApiResult) :
    ∀ (chunks : List String) (idx : Nat) (frag : String) (i : Nat)
      (hi : i < chunks.length) (h2 : i < (processTrace retry api idx frag chunks).length),
      ∃ frag2, (processTrace retry api idx frag chunks).get ⟨i, h2⟩ =
        runStep retry (api (idx + i)) (idx + i) frag2 (chunks.get ⟨i, hi⟩) := by
  intro chunks
  induction chunks with
  | nil => intro idx frag i hi; exact absurd hi (by simp)
  | cons c rest ih =>
    intro idx frag i hi h2
    cases i with
    | zero => exact ⟨frag, by simp [processTrace]⟩
    | succ j =>
      have hj : j < rest.length := by simpa using hi
      have hj2 : j < (processTrace retry api (idx + 1)
          (runStep retry (api idx) idx frag c).fragOut rest).length := by
        rw [processTrace_length]; exact hj
      obtain ⟨f2, hf⟩ := ih (idx + 1) (runStep retry (api idx) idx frag c).fragOut j hj hj2
      refine ⟨f2, ?_⟩
      have harith : idx + 1 + j = idx + (j + 1) := by omega
      simpa [processTrace, harith] using hf

theorem process_chunk_loop_succ (api1 : Nat → ApiResult) (chunk : String)
    (idx r attempt : Nat) :
    process_chunk_loop api1 chunk idx (r + 1) attempt =
      (match api1 attempt with
      | ApiResult.ok c => some (strip_content (pyStrip c), none, attempt + 1)
      | ApiResult.err e =>
        if r = 0 then
          some ("# 处理失败的内容\n\n" ++ chunk, some ⟨idx, chunk, e⟩, attempt + 1)
        else process_chunk_loop api1 chunk idx r (attempt + 1)) := rfl

theorem process_chunk_loop_allfail (api1 : Nat → ApiResult) (chunk : String)
    (idx : Nat) (es : Nat → String) :
    ∀ (remaining attempt : Nat), 0 < remaining →
      (∀ a, attempt ≤ a → a < attempt + remaining → api1 a = ApiResult.err (es a)) →
      process_chunk_loop api1 chunk idx remaining attempt =
        some ("# 处理失败的内容\n\n" ++ chunk,
          some ⟨idx, chunk, es (attempt + remaining - 1)⟩, attempt + remaining) := by
  intro remaining
  induction remaining with
  | zero => intro attempt h; omega
  | succ r ih =>
    intro attempt _ hall
    have ha : api1 attempt = ApiResult.err (es attempt) := hall attempt le_rfl (by omega)
    cases r with
    | zero =>
      rw [process_chunk_loop_succ, ha]
      simp
    | succ q =>
      have hrec := ih (attempt + 1) (by omega)
        (fun a h1 h2 => hall a (by omega) (by omega))
      have h1 : attempt + 1 + (q + 1) = attempt + (q + 1 + 1) := by omega
      rw [process_chunk_loop_succ, ha]
      dsimp only
      rw [if_neg (Nat.succ_ne_zero q), hrec, h1]

theorem runStep_augmented (retry : Nat) (api1 : Nat → ApiResult) (idx : Nat)
    (fragIn chunk : String) :
    (runStep retry api1 idx fragIn chunk).augmented = augmentedInput fragIn chunk := by
  unfold runStep
  split <;> rfl

theorem appendToLast_length (suffix : String) :
    ∀ (l : List String), (appendToLast suffix l).length = l.length := by
  intro l
  induction l with
  | nil => rfl
  | cons x rest ih =>
    cases rest with
    | nil => rfl
    | cons y t => simpa [appendToLast] using ih

theorem appendToLast_getLast (suffix : String) :
    ∀ (l : List String) (x : String), l.getLast? = some x →
      (appendToLast suffix l).getLast? = some (x ++ suffix) := by
  intro l
  induction l with
  | nil => intro x h; simp at h
  | cons a rest ih =>
    intro x h
    cases rest with
    | nil =>
      have hax : a = x := by simpa using h
      simp [appendToLast, hax]
    | cons b t =>
      have h2 : (b :: t).getLast? = some x := by
        rwa [List.getLast?_cons_cons] at h
      have h3 := ih x h2
      have hstep : appendToLast suffix (a :: b :: t) = a :: appendToLast suffix (b :: t) := rfl
      rw [hstep]
      cases hat : appendToLast suffix (b :: t) with
      | nil =>
        exfalso
        have hl : (appendToLast suffix (b :: t)).length = (b :: t).length :=
          appendToLast_length suffix (b :: t)
        rw [hat] at hl
        simp at hl
      | cons u v =>
        rw [hat] at h3
        rw [List.getLast?_cons_cons]
        exact h3

theorem appendToLast_head (suffix : String) (a b : String) (t : List String) :
    (appendToLast suffix (a :: b :: t)).head? = some a := by
  cases t <;> rfl


/-! ### Helper lemmas about the chunker -/

theorem chunksOfF_nil {α : Type} (fuel n : Nat) : chunksOfF fuel n ([] : List α) = [] := by
  cases fuel <;> simp [chunksOfF]

theorem chunksOfF_cons {α : Type} (fuel n : Nat) (w : α) (ws2 : List α) :
    chunksOfF (fuel + 1) n (w :: ws2) =
      (w :: ws2).take n :: chunksOfF fuel n ((w :: ws2).drop n) := by
  simp [chunksOfF]

theorem chunksOfF_flatten {α : Type} :
    ∀ (fuel n : Nat) (ws : List α), ws.length < fuel → 0 < n →
      (chunksOfF fuel n ws).flatten = ws := by
  intro fuel
  induction fuel with
  | zero => intro n ws h; omega
  | succ f ih =>
    intro n ws hlen hn
    cases ws with
    | nil => simp [chunksOfF]
    | cons w ws2 =>
      have hd : ((w :: ws2).drop n).length < f := by
        rw [List.length_drop]
        simp only [List.length_cons] at hlen ⊢
        omega
      rw [chunksOfF_cons, List.flatten_cons, ih n _ hd hn, List.take_append_drop]

theorem chunksOfF_sizes {α : Type} :
    ∀ (fuel n : Nat) (ws : List α) (i : Nat) (g : List α), ws.length < fuel → 0 < n →
      i + 1 < (chunksOfF fuel n ws).length → (chunksOfF fuel n ws)[i]? = some g →
      g.length = n := by
  intro fuel
  induction fuel with
  | zero => intro n ws i g h; omega
  | succ f ih =>
    intro n ws i g hlen hn hi hg
    cases ws with
    | nil => rw [chunksOfF_nil] at hi; simp at hi
    | cons w ws2 =>
      have hd : ((w :: ws2).drop n).length < f := by
        rw [List.length_drop]
        simp only [List.length_cons] at hlen ⊢
        omega
      rw [chunksOfF_cons] at hi hg
      cases i with
      | zero =>
        have hg2 : g = (w :: ws2).take n := by simpa using hg.symm
        have hrest : 0 < (chunksOfF f n ((w :: ws2).drop n)).length := by
          simp only [List.length_cons] at hi
          omega
        have hne : (w :: ws2).drop n ≠ [] := by
          intro hcon
          rw [hcon, chunksOfF_nil] at hrest
          simp at hrest
        have hnlt : n < (w :: ws2).length := by
          by_contra hcon
          exact hne (List.drop_eq_nil_iff.mpr (by omega))
        rw [hg2, List.length_take]
        omega
      | succ j =>
        have hj : j + 1 < (chunksOfF f n ((w :: ws2).drop n)).length := by
          simpa using hi
        have hgj : (chunksOfF f n ((w :: ws2).drop n))[j]? = some g := by
          simpa using hg
        exact ih n _ j g hd hn hj hgj

theorem pyJoin_append (sep : String) :
    ∀ (xs ys : List String), xs ≠ [] → ys ≠ [] →
      pyJoin sep (xs ++ ys) = pyJoin sep xs ++ sep ++ pyJoin sep ys := by
  intro xs
  induction xs with
  | nil => intro ys h; exact absurd rfl h
  | cons x xs2 ih =>
    intro ys hx hy
    cases xs2 with
    | nil =>
      cases ys with
      | nil => exact absurd rfl hy
      | cons y ys2 => simp [pyJoin]
    | cons x2 xs3 =>
      have hrec := ih ys (by simp) hy
      have hcons : (x :: x2 :: xs3) ++ ys = x :: ((x2 :: xs3) ++ ys) := rfl
      rw [hcons]
      have hcons2 : (x2 :: xs3) ++ ys = x2 :: (xs3 ++ ys) := rfl
      rw [hcons2]
      show x ++ sep ++ pyJoin sep (x2 :: (xs3 ++ ys)) = pyJoin sep (x :: x2 :: xs3) ++ sep ++ pyJoin sep ys
      rw [← hcons2, hrec]
      show x ++ sep ++ (pyJoin sep (x2 :: xs3) ++ sep ++ pyJoin sep ys) =
        x ++ sep ++ pyJoin sep (x2 :: xs3) ++ sep ++ pyJoin sep ys
      simp [String.append_assoc]

theorem chunksOfF_pyJoin :
    ∀ (fuel n : Nat) (ws : List String), ws.length < fuel → 0 < n →
      pyJoin " " ((chunksOfF fuel n ws).map (fun g => pyJoin " " g)) = pyJoin " " ws := by
  intro fuel
  induction fuel with
  | zero => intro n ws h; omega
  | succ f ih =>
    intro n ws hlen hn
    cases ws with
    | nil => simp [chunksOfF, pyJoin]
    | cons w ws2 =>
      have hd : ((w :: ws2).drop n).length < f := by
        rw [List.length_drop]
        simp only [List.length_cons] at hlen ⊢
        omega
      rw [chunksOfF_cons]
      by_cases hdrop : (w :: ws2).drop n = []
      · have htake : (w :: ws2).take n = w :: ws2 :=
          List.take_of_length_le (by simpa using List.drop_eq_nil_iff.mp hdrop)
        rw [hdrop, chunksOfF_nil]
        simp [pyJoin, htake]
      · have htkne : (w :: ws2).take n ≠ [] := by
          intro hcon
          rcases List.take_eq_nil_iff.mp hcon with h0 | h0
          · omega
          · exact List.cons_ne_nil w ws2 h0
        have hrec := ih n ((w :: ws2).drop n) hd hn
        have hchne : (chunksOfF f n ((w :: ws2).drop n)).map (fun g => pyJoin " " g) ≠ [] := by
          cases f with
          | zero => omega
          | succ f2 =>
            cases hdd : (w :: ws2).drop n with
            | nil => exact absurd hdd hdrop
            | cons d ds => rw [chunksOfF_cons]; simp
        cases hmap : (chunksOfF f n ((w :: ws2).drop n)).map (fun g => pyJoin " " g) with
        | nil => exact absurd hmap hchne
        | cons m ms =>
          rw [List.map_cons, hmap]
          show pyJoin " " (pyJoin " " ((w :: ws2).take n) :: m :: ms) = pyJoin " " (w :: ws2)
          rw [show pyJoin " " (pyJoin " " ((w :: ws2).take n) :: m :: ms) =
            pyJoin " " ((w :: ws2).take n) ++ " " ++ pyJoin " " (m :: ms) from rfl]
          rw [← hmap, hrec, ← pyJoin_append " " _ _ htkne hdrop, List.take_append_drop]

/-! ### Helper lemmas about the merger -/

theorem merge_loop_doc :
    ∀ (rest : List String) (acc : String),
      ∃ suffix, (merge_loop acc rest).1 = acc ++ suffix := by
  intro rest
  induction rest with
  | nil => intro acc; exact ⟨"", by simp [merge_loop]⟩
  | cons c t ih =>
    intro acc
    obtain ⟨suf, hsuf⟩ := ih (acc ++ "\n\n" ++ c)
    refine ⟨"\n\n" ++ c ++ suf, ?_⟩
    show (merge_loop (acc ++ "\n\n" ++ c) t).1 = acc ++ ("\n\n" ++ c ++ suf)
    rw [hsuf]
    simp [String.append_assoc]

theorem merge_loop_spec :
    ∀ (rest : List String) (acc : String),
      (merge_loop acc rest).2.length = rest.length ∧
      List.Pairwise (fun a b => a < b) (merge_loop acc rest).2 ∧
      ∀ p ∈ (merge_loop acc rest).2, acc.length ≤ p ∧ blankJoinAt (merge_loop acc rest).1 p := by
  intro rest
  induction rest with
  | nil =>
    intro acc
    refine ⟨rfl, by simp [merge_loop], by simp [merge_loop]⟩
  | cons c t ih =>
    intro acc
    obtain ⟨hlen, hpw, hmem⟩ := ih (acc ++ "\n\n" ++ c)
    have hstep1 : (merge_loop acc (c :: t)).1 = (merge_loop (acc ++ "\n\n" ++ c) t).1 := rfl
    have hstep2 : (merge_loop acc (c :: t)).2 = acc.length :: (merge_loop (acc ++ "\n\n" ++ c) t).2 := rfl
    have hacclen : (acc ++ "\n\n" ++ c).length = acc.length + 2 + c.length := by
      simp [String.length_append]
      rfl
    refine ⟨?_, ?_, ?_⟩
    · rw [hstep2]; simp [hlen]
    · rw [hstep2]
      refine List.Pairwise.cons ?_ hpw
      intro p hp
      have hge := (hmem p hp).1
      omega
    · intro p hp
      rw [hstep2] at hp
      rw [hstep1]
      rcases List.mem_cons.mp hp with hh | hh
      · subst hh
        refine ⟨le_rfl, ?_⟩
        obtain ⟨suf, hsuf⟩ := merge_loop_doc t (acc ++ "\n\n" ++ c)
        rw [hsuf]
        unfold blankJoinAt
        have hdata : (acc ++ "\n\n" ++ c ++ suf).data =
            acc.data ++ ('\n' :: '\n' :: (c.data ++ suf.data)) := by
          simp [String.data_append]
        rw [hdata]
        have hlenacc : acc.length = acc.data.length := rfl
        rw [hlenacc, List.drop_left]
        rfl
      · have h2 := hmem p hh
        exact ⟨by omega, h2.2⟩

/-! ### Claim theorems -/

/-- C6: for every input text and every positive chunk size, the chunks
returned by `split_text` are the word groups of the whitespace-normalized
word sequence rejoined with single spaces; rejoining all chunks with single
spaces reproduces the normalized word sequence exactly (no word dropped,
duplicated, reordered or split, witnessed by the groups flattening back to
the word list); every chunk except the last holds exactly `size` words; and
empty text yields an empty chunk sequence. -/
theorem split_text_word_preservation (size : Nat) (text : String) (hs : 0 < size) :
    split_text (size : Int) text = some ((chunksOf size (pyWords text)).map (fun g => pyJoin " " g)) ∧
    pyJoin " " ((chunksOf size (pyWords text)).map (fun g => pyJoin " " g)) = pyJoin " " (pyWords text) ∧
    (chunksOf size (pyWords text)).flatten = pyWords text ∧
    (∀ (i : Nat) (g : List String), i + 1 < (chunksOf size (pyWords text)).length →
      (chunksOf size (pyWords text))[i]? = some g → g.length = size) ∧
    split_text (size : Int) "" = some [] := by
  have hz : (size : Int) ≠ 0 := by
    simp only [ne_eq, Int.natCast_eq_zero]
    omega
  have hneg : ¬ ((size : Int) < 0) := by
    simp [Int.natCast_nonneg]
  have htn : (size : Int).toNat = size := Int.toNat_natCast size
  refine ⟨?_, ?_, ?_, ?_, ?_⟩
  · simp [split_text, hz, hneg, htn]
  · exact chunksOfF_pyJoin ((pyWords text).length + 1) size (pyWords text) (by omega) hs
  · exact chunksOfF_flatten ((pyWords text).length + 1) size (pyWords text) (by omega) hs
  · intro i g hi hg
    exact chunksOfF_sizes ((pyWords text).length + 1) size (pyWords text) i g (by omega) hs hi hg
  · have hempty : pyWords "" = [] := rfl
    simp [split_text, hz, hneg, htn, hempty, chunksOf, chunksOfF]

/-- Witness for C6: the theorem applied at chunk size 2 and the example text,
with the evaluated chunking alongside. -/
theorem split_text_word_preservation_witness :
    (0 < 2 ∧ split_text 2 "a b c" = some ["a b", "c"]) ∧
    (split_text (2 : Nat) "a b c" =
        some ((chunksOf 2 (pyWords "a b c")).map (fun g => pyJoin " " g)) ∧
      pyJoin " " ((chunksOf 2 (pyWords "a b c")).map (fun g => pyJoin " " g)) =
        pyJoin " " (pyWords "a b c") ∧
      (chunksOf 2 (pyWords "a b c")).flatten = pyWords "a b c" ∧
      (∀ (i : Nat) (g : List String), i + 1 < (chunksOf 2 (pyWords "a b c")).length →
        (chunksOf 2 (pyWords "a b c"))[i]? = some g → g.length = 2) ∧
      split_text (2 : Nat) "" = some []) :=
  ⟨⟨by decide, by decide⟩, split_text_word_preservation 2 "a b c" (by decide)⟩

/-- C7 (amended): `chunk_size = 0` makes the chunking step itself fail
(Python's `range` raises `ValueError`) before any completion call; but a
negative `chunk_size` is NOT rejected — the chunker returns an empty chunk
list, so the sequential processor performs no completion call at all and
returns empty output. -/
theorem chunk_size_validation_amended (text : String) :
    split_text 0 text = none ∧
    (∀ k : Int, k < 0 → split_text k text = some []) ∧
    (∀ (retry : Nat) (api : Nat → Nat → ApiResult),
      process_chunks_sequentially retry api [] = ([], [])) := by
  refine ⟨by simp [split_text], ?_, ?_⟩
  · intro k hk
    have hkz : k ≠ 0 := by omega
    simp [split_text, hkz, hk]
  · intro retry api
    rfl

/-- Counterexample for C7 as stated: a negative chunk size is accepted (the
chunker returns an empty chunk list instead of signalling a configuration
error). -/
theorem chunk_size_negative_not_rejected_cex :
    split_text (-1) "hello world" = some [] ∧ split_text (-1) "hello world" ≠ none := by
  refine ⟨by decide, by decide⟩

/-- Witness for the amended C7 at concrete inputs. -/
theorem chunk_size_validation_amended_witness :
    ((-2 : Int) < 0 ∧ split_text (-2) "hi" = some [] ∧ split_text 0 "hi" = none) ∧
    process_chunks_sequentially 3 (fun _ _ => ApiResult.err "e") [] = ([], []) :=
  ⟨⟨by decide, (chunk_size_validation_amended "hi").2.1 (-2) (by decide),
      (chunk_size_validation_amended "hi").1⟩,
    (chunk_size_validation_amended "hi").2.2 3 (fun _ _ => ApiResult.err "e")⟩

/-- C4 (amended): for every chunk list, `merge_content` returns exactly N−1
seam offsets for N surviving (non-blank) chunks, strictly increasing, and each
offset points at a blank-line join of the merged document *before* cleanup
(`merge_raw`); cleanup may shift or delete text, so the offsets are paragraph
boundaries of the returned (cleaned) document only when cleanup leaves the
merged text unchanged. -/
theorem seam_monotonic_amended (chunks : List String) :
    (merge_content chunks).2 = (merge_raw chunks).2 ∧
    (merge_raw chunks).2.length = (merge_valid chunks).length - 1 ∧
    List.Pairwise (fun a b => a < b) (merge_raw chunks).2 ∧
    ∀ p ∈ (merge_raw chunks).2, blankJoinAt (merge_raw chunks).1 p := by
  cases hv : merge_valid chunks with
  | nil =>
    refine ⟨rfl, ?_, ?_, ?_⟩ <;> simp [merge_raw, hv]
  | cons c rest =>
    obtain ⟨hlen, hpw, hmem⟩ := merge_loop_spec rest c
    have hr : merge_raw chunks = merge_loop c rest := by simp [merge_raw, hv]
    refine ⟨rfl, ?_, ?_, ?_⟩
    · rw [hr, hlen]
      simp
    · rw [hr]
      exact hpw
    · rw [hr]
      intro p hp
      exact (hmem p hp).2

/-- Counterexample for C4 as stated: with a chunk that still carries an
incompleteness marker, cleanup removes 12 characters, so the recorded offset
14 does not point at a paragraph boundary of the document `merge_content`
returns (which only has 5 characters). -/
theorem seam_offsets_cleanup_cex :
    (merge_content ["x [不完整句子: abc]", "y"]).1 = "x \n\ny" ∧
    (merge_content ["x [不完整句子: abc]", "y"]).2 = [14] ∧
    ¬ blankJoinAt (merge_content ["x [不完整句子: abc]", "y"]).1 14 := by
  refine ⟨by decide, by decide, by decide⟩

/-- Witness for the amended C4 at a concrete two-chunk input. -/
theorem seam_monotonic_amended_witness :
    (merge_content ["a", "b"] = ("a\n\nb", [1]) ∧ blankJoinAt "a\n\nb" 1) ∧
    ((merge_content ["a", "b"]).2 = (merge_raw ["a", "b"]).2 ∧
      (merge_raw ["a", "b"]).2.length = (merge_valid ["a", "b"]).length - 1 ∧
      List.Pairwise (fun a b => a < b) (merge_raw ["a", "b"]).2 ∧
      ∀ p ∈ (merge_raw ["a", "b"]).2, blankJoinAt (merge_raw ["a", "b"]).1 p) :=
  ⟨⟨by decide, by decide⟩, seam_monotonic_amended ["a", "b"]⟩

/-- C5: `final_cleanup` is NOT idempotent.  On `"\n#\n# x"` the first
application yields `"#\n# x"` (the second heading's newline was consumed by
the first heading match, and `strip` removed the leading blank line); the
second application fires the heading rule again and yields `"#\n\n# x"`.
This contradicts the required idempotence property, so it is a code bug. -/
theorem final_cleanup_not_idempotent_eval :
    final_cleanup "\n#\n# x" = "#\n# x" ∧
    final_cleanup (final_cleanup "\n#\n# x") = "#\n\n# x" ∧
    final_cleanup (final_cleanup "\n#\n# x") ≠ final_cleanup "\n#\n# x" := by
  refine ⟨by decide, by decide, by decide⟩

/-- C9: when the repair oracle terminally fails on seam k, processing that
seam leaves the whole document unchanged (hence in particular the text
outside the extraction window), and the remaining seams (processed
afterwards, at lower offsets) are repaired from exactly the same document as
if seam k had been skipped. -/
theorem boundary_repair_isolation (oracle : Nat → Option String) (content : String)
    (k p : Nat) (rest : List (Nat × Nat)) (hfail : oracle k = none) :
    optimize_boundary_step oracle content (k, p) = content ∧
    optimize_boundaries_loop oracle content ((k, p) :: rest) =
      optimize_boundaries_loop oracle content rest := by
  have hstep : optimize_boundary_step oracle content (k, p) = content := by
    unfold optimize_boundary_step
    rw [hfail]
  exact ⟨hstep, by simp [optimize_boundaries_loop, hstep]⟩

/-- Witness for C9 at a concrete document with a failing oracle. -/
theorem boundary_repair_isolation_witness :
    ((fun _ : Nat => (none : Option String)) 0 = none ∧
      optimize_boundaries_loop (fun _ => none) "p1\n\np2" [(0, 2)] = "p1\n\np2") ∧
    (optimize_boundary_step (fun _ => none) "p1\n\np2" (0, 2) = "p1\n\np2" ∧
      optimize_boundaries_loop (fun _ => none) "p1\n\np2" ((0, 2) :: []) =
        optimize_boundaries_loop (fun _ => none) "p1\n\np2" []) :=
  ⟨⟨rfl, by decide⟩, boundary_repair_isolation (fun _ => none) "p1\n\np2" 0 2 [] rfl⟩

/-- C10: `apply_boundary_fix` is a pure splice: for window bounds
`s ≤ e ≤ length`, the first `s` characters and the last `length - e`
characters of the document are preserved verbatim, the result is exactly
prefix ++ cleaned replacement ++ suffix, and an empty replacement returns the
document unchanged. -/
theorem apply_boundary_fix_frame (content : String) (s e : Nat) (fixed : String)
    (hse : s ≤ e) (he : e ≤ content.data.length) :
    (fixed = "" → apply_boundary_fix content s e fixed = content) ∧
    (apply_boundary_fix content s e fixed).data.take s = content.data.take s ∧
    (apply_boundary_fix content s e fixed).data.drop
        ((apply_boundary_fix content s e fixed).data.length - (content.data.length - e)) =
      content.data.drop e ∧
    (fixed ≠ "" → (apply_boundary_fix content s e fixed).data =
      content.data.take s ++ (cleanedFix fixed).data ++ content.data.drop e) := by
  by_cases hf : fixed = ""
  · have heq : apply_boundary_fix content s e fixed = content := by
      simp [apply_boundary_fix, hf]
    have hsub : content.data.length - (content.data.length - e) = e := by omega
    exact ⟨fun _ => heq, by rw [heq], by rw [heq, hsub], fun hc => absurd hf hc⟩
  · have hdata : (apply_boundary_fix content s e fixed).data =
        content.data.take s ++ (cleanedFix fixed).data ++ content.data.drop e := by
      simp [apply_boundary_fix, hf]
    have hA : (content.data.take s).length = s := by
      rw [List.length_take]
      omega
    have hC : (content.data.drop e).length = content.data.length - e :=
      List.length_drop e content.data
    refine ⟨fun hc => absurd hc hf, ?_, ?_, fun _ => hdata⟩
    · have htl := List.take_left (content.data.take s)
        ((cleanedFix fixed).data ++ content.data.drop e)
      rw [hA] at htl
      rw [hdata, List.append_assoc]
      exact htl
    · rw [hdata]
      have hlen2 : (content.data.take s ++ (cleanedFix fixed).data ++ content.data.drop e).length -
          (content.data.length - e) = (content.data.take s ++ (cleanedFix fixed).data).length := by
        rw [List.length_append, hC]
        omega
      rw [hlen2, List.drop_left]

/-- Witness for C10 at a concrete splice. -/
theorem apply_boundary_fix_frame_witness :
    (2 ≤ 4 ∧ 4 ≤ ("abcdef" : String).data.length ∧
      apply_boundary_fix "abcdef" 2 4 "XY" = "abXYef") ∧
    (("XY" : String) = "" → apply_boundary_fix "abcdef" 2 4 "XY" = "abcdef") ∧
    (apply_boundary_fix "abcdef" 2 4 "XY").data.take 2 = ("abcdef" : String).data.take 2 ∧
    (apply_boundary_fix "abcdef" 2 4 "XY").data.drop
        ((apply_boundary_fix "abcdef" 2 4 "XY").data.length -
          (("abcdef" : String).data.length - 4)) =
      ("abcdef" : String).data.drop 4 ∧
    (("XY" : String) ≠ "" → (apply_boundary_fix "abcdef" 2 4 "XY").data =
      ("abcdef" : String).data.take 2 ++ (cleanedFix "XY").data ++
        ("abcdef" : String).data.drop 4) :=
  ⟨⟨by decide, by decide, by decide⟩,
    (apply_boundary_fix_frame "abcdef" 2 4 "XY" (by decide) (by decide)).1,
    (apply_boundary_fix_frame "abcdef" 2 4 "XY" (by decide) (by decide)).2.1,
    (apply_boundary_fix_frame "abcdef" 2 4 "XY" (by decide) (by decide)).2.2.1,
    (apply_boundary_fix_frame "abcdef" 2 4 "XY" (by decide) (by decide)).2.2.2⟩

/-- C1: in a two-chunk run where chunk 1's adapter call returns `content1`
and marker extraction on it yields `(clean, T)`, the stored output for
chunk 1 is `clean` (the response with the marker stripped), and the input
text sent for chunk 2 (the text substituted into the prompt) is
`T ++ " " ++ c2` with a single separating space — or `c2` unchanged when the
carried fragment `T` is empty. -/
theorem fragment_handoff_correct (retry : Nat) (api : Nat → Nat → ApiResult)
    (c1 c2 content1 clean T : String) (rec1 : Option FailedChunk) (att1 : Nat)
    (h1 : process_chunk_async retry (api 0) c1 0 = some (content1, rec1, att1))
    (h2 : extract_incomplete_sentence content1 = (clean, T)) :
    processTrace retry api 0 "" [c1, c2] =
      [⟨c1, clean, T, rec1, att1⟩, runStep retry (api 1) 1 T c2] ∧
    (runStep retry (api 1) 1 T c2).augmented =
      (if T = "" then c2 else T ++ " " ++ c2) ∧
    (process_chunks_sequentially retry api [c1, c2]).1.head? = some clean := by
  have haug : augmentedInput "" c1 = c1 := by simp [augmentedInput]
  have hstep0 : runStep retry (api 0) 0 "" c1 = ⟨c1, clean, T, rec1, att1⟩ := by
    unfold runStep
    rw [haug, h1]
    dsimp only
    rw [h2]
  have htrace : processTrace retry api 0 "" [c1, c2] =
      [⟨c1, clean, T, rec1, att1⟩, runStep retry (api 1) 1 T c2] := by
    show runStep retry (api 0) 0 "" c1 ::
        runStep retry (api 1) 1 (runStep retry (api 0) 0 "" c1).fragOut c2 :: [] = _
    rw [hstep0]
  refine ⟨htrace, runStep_augmented retry (api 1) 1 T c2, ?_⟩
  simp only [process_chunks_sequentially]
  rw [htrace]
  by_cases hfo : (runStep retry (api 1) 1 T c2).fragOut = ""
  · simp [hfo]
  · simp [hfo, appendToLast]

/-- Witness for C1: a one-retry run whose first response carries the marker
`[不完整句子: b]`; the fragment `b` is prepended to chunk 2's input. -/
theorem fragment_handoff_correct_witness :
    (process_chunk_async 1 ((fun _ _ => ApiResult.ok "A.\n\n[不完整句子: b]") 0) "a b" 0 =
        some ("A.\n\n[不完整句子: b]", none, 1) ∧
      extract_incomplete_sentence "A.\n\n[不完整句子: b]" = ("A.", "b") ∧
      augmentedInput "b" "c d" = "b" ++ " " ++ "c d") ∧
    (processTrace 1 (fun _ _ => ApiResult.ok "A.\n\n[不完整句子: b]") 0 "" ["a b", "c d"] =
        [⟨"a b", "A.", "b", none, 1⟩,
          runStep 1 ((fun _ _ => ApiResult.ok "A.\n\n[不完整句子: b]") 1) 1 "b" "c d"] ∧
      (runStep 1 ((fun _ _ => ApiResult.ok "A.\n\n[不完整句子: b]") 1) 1 "b" "c d").augmented =
        (if ("b" : String) = "" then "c d" else "b" ++ " " ++ "c d") ∧
      (process_chunks_sequentially 1 (fun _ _ => ApiResult.ok "A.\n\n[不完整句子: b]")
          ["a b", "c d"]).1.head? = some "A.") :=
  ⟨⟨by decide, by decide, by decide⟩,
    fragment_handoff_correct 1 (fun _ _ => ApiResult.ok "A.\n\n[不完整句子: b]")
      "a b" "c d" "A.\n\n[不完整句子: b]" "A." "b" none 1 (by decide) (by decide)⟩

/-- C2 (amended): when the trace of a run ends with a step still carrying a
non-empty fragment, the sequential processor's returned last element is that
step's stored output with the fragment appended under the
`[文件末尾不完整句子: ...]` tag — the processor itself does preserve the
fragment.  (The pipeline then loses it: see the counterexample, where
`merge_content`'s cleanup strips exactly this tag.) -/
theorem endfrag_processor_preserves (retry : Nat) (api : Nat → Nat → ApiResult)
    (chunks : List String) (t : StepTrace)
    (hlast : (processTrace retry api 0 "" chunks).getLast? = some t)
    (hfrag : t.fragOut ≠ "") :
    (process_chunks_sequentially retry api chunks).1.getLast? =
      some (t.stored ++ ("\n\n[文件末尾不完整句子: " ++ t.fragOut ++ "]")) := by
  simp only [process_chunks_sequentially]
  rw [hlast]
  rw [if_neg hfrag]
  apply appendToLast_getLast
  rw [List.getLast?_map, hlast]
  rfl

/-- Witness for the amended C2: the last (only) step ends with fragment
`tail`, and the processor's output carries it under the end-of-document
tag. -/
theorem endfrag_processor_preserves_witness :
    ((processTrace 1 (fun _ _ => ApiResult.ok "X\n\n[不完整句子: tail]") 0 "" ["a"]).getLast? =
        some ⟨"a", "X", "tail", none, 1⟩ ∧
      ("tail" : String) ≠ "" ∧
      (process_chunks_sequentially 1 (fun _ _ => ApiResult.ok "X\n\n[不完整句子: tail]")
          ["a"]).1 = ["X\n\n[文件末尾不完整句子: tail]"]) ∧
    (process_chunks_sequentially 1 (fun _ _ => ApiResult.ok "X\n\n[不完整句子: tail]")
        ["a"]).1.getLast? =
      some ((⟨"a", "X", "tail", none, 1⟩ : StepTrace).stored ++
        ("\n\n[文件末尾不完整句子: " ++ (⟨"a", "X", "tail", none, 1⟩ : StepTrace).fragOut ++ "]")) :=
  ⟨⟨by decide, by decide, by decide⟩,
    endfrag_processor_preserves 1 (fun _ _ => ApiResult.ok "X\n\n[不完整句子: tail]") ["a"]
      ⟨"a", "X", "tail", none, 1⟩ (by decide) (by decide)⟩

/-- Counterexample for C2 as stated: in the same run, the full pipeline
(processor followed by `merge_content`) produces the final document `"X"` —
`final_cleanup`'s pattern `\[文件末尾不完整句子:[^\]]*\]` removes the
end-of-document annotation, so the fragment `tail` is silently discarded from
the final output. -/
theorem endfrag_pipeline_drops_cex :
    (merge_content (process_chunks_sequentially 1
        (fun _ _ => ApiResult.ok "X\n\n[不完整句子: tail]") ["a"]).1).1 = "X" ∧
    containsSub (merge_content (process_chunks_sequentially 1
        (fun _ _ => ApiResult.ok "X\n\n[不完整句子: tail]") ["a"]).1).1.data
      "tail".data = false := by
  refine ⟨by decide, by decide⟩

/-- Structure of a trace step whose adapter call fails on every attempt:
the step stores the extraction result of the failure placeholder built over
its augmented input, carries the extracted fragment, records the failure with
the last attempt's error, and uses exactly `retry` attempts. -/
theorem allfail_step_struct (retry : Nat) (api : Nat → Nat → ApiResult)
    (chunks : List String) (i : Nat) (es : Nat → String) (tr : StepTrace)
    (hretry : 0 < retry)
    (hfail : ∀ a, a < retry → api i a = ApiResult.err (es a))
    (hi : i < (processTrace retry api 0 "" chunks).length)
    (htr : (processTrace retry api 0 "" chunks).get ⟨i, hi⟩ = tr) :
    tr = ⟨tr.augmented,
      (extract_incomplete_sentence ("# 处理失败的内容\n\n" ++ tr.augmented)).1,
      (extract_incomplete_sentence ("# 处理失败的内容\n\n" ++ tr.augmented)).2,
      some ⟨i, tr.augmented, es (retry - 1)⟩, retry⟩ := by
  have hic : i < chunks.length := by
    rw [← processTrace_length retry api chunks 0 ""]
    exact hi
  obtain ⟨f2, hget⟩ := processTrace_get retry api chunks 0 "" i hic hi
  rw [Nat.zero_add] at hget
  have hloop := process_chunk_loop_allfail (api i)
    (augmentedInput f2 (chunks.get ⟨i, hic⟩)) i es retry 0 hretry
    (fun a h1 h2 => hfail a (by omega))
  rw [Nat.zero_add] at hloop
  have hrs : runStep retry (api i) i f2 (chunks.get ⟨i, hic⟩) =
      ⟨augmentedInput f2 (chunks.get ⟨i, hic⟩),
        (extract_incomplete_sentence ("# 处理失败的内容\n\n" ++
          augmentedInput f2 (chunks.get ⟨i, hic⟩))).1,
        (extract_incomplete_sentence ("# 处理失败的内容\n\n" ++
          augmentedInput f2 (chunks.get ⟨i, hic⟩))).2,
        some ⟨i, augmentedInput f2 (chunks.get ⟨i, hic⟩), es (retry - 1)⟩, retry⟩ := by
    unfold runStep
    rw [show process_chunk_async retry (api i)
        (augmentedInput f2 (chunks.get ⟨i, hic⟩)) i =
      some ("# 处理失败的内容\n\n" ++ augmentedInput f2 (chunks.get ⟨i, hic⟩),
        some ⟨i, augmentedInput f2 (chunks.get ⟨i, hic⟩), es (retry - 1)⟩, retry) from hloop]
  have htr2 : tr = ⟨augmentedInput f2 (chunks.get ⟨i, hic⟩),
      (extract_incomplete_sentence ("# 处理失败的内容\n\n" ++
        augmentedInput f2 (chunks.get ⟨i, hic⟩))).1,
      (extract_incomplete_sentence ("# 处理失败的内容\n\n" ++
        augmentedInput f2 (chunks.get ⟨i, hic⟩))).2,
      some ⟨i, augmentedInput f2 (chunks.get ⟨i, hic⟩), es (retry - 1)⟩, retry⟩ := by
    rw [← htr, hget, hrs]
  rw [htr2]

/-- The failed-chunk record list returned by the processor is the ordered
collection of the per-step records. -/
theorem process_chunks_sequentially_snd (retry : Nat) (api : Nat → Nat → ApiResult)
    (chunks : List String) :
    (process_chunks_sequentially retry api chunks).2 =
      (processTrace retry api 0 "" chunks).filterMap (fun st => st.failedRec) := by
  simp only [process_chunks_sequentially]
  split <;> rfl

/-- The processor stores exactly one output per chunk. -/
theorem process_chunks_sequentially_fst_length (retry : Nat) (api : Nat → Nat → ApiResult)
    (chunks : List String) :
    (process_chunks_sequentially retry api chunks).1.length = chunks.length := by
  simp only [process_chunks_sequentially]
  split
  · rw [List.length_map, processTrace_length]
  · rw [appendToLast_length, List.length_map, processTrace_length]

/-- C3 (amended): when step `i`'s adapter call fails on all `retry` attempts,
the step uses exactly `retry` attempts; its stored output is the tagged
failure placeholder over the (possibly fragment-augmented) input — run
through marker extraction, and therefore literally equal to the placeholder
whenever the augmented input contains no incompleteness marker; a
failed-chunk record with the step index, the augmented input and the last
error text is in the processor's failed list; and processing still stores one
output for every chunk. -/
theorem retry_exhaustion_amended (retry : Nat) (api : Nat → Nat → ApiResult)
    (chunks : List String) (i : Nat) (es : Nat → String) (tr : StepTrace)
    (hretry : 0 < retry)
    (hfail : ∀ a, a < retry → api i a = ApiResult.err (es a))
    (hi : i < (processTrace retry api 0 "" chunks).length)
    (htr : (processTrace retry api 0 "" chunks).get ⟨i, hi⟩ = tr) :
    tr.attempts = retry ∧
    tr.stored = (extract_incomplete_sentence ("# 处理失败的内容\n\n" ++ tr.augmented)).1 ∧
    tr.failedRec = some ⟨i, tr.augmented, es (retry - 1)⟩ ∧
    (⟨i, tr.augmented, es (retry - 1)⟩ : FailedChunk) ∈
      (process_chunks_sequentially retry api chunks).2 ∧
    (process_chunks_sequentially retry api chunks).1.length = chunks.length ∧
    (findBracket '[' incompleteHead 1 ("# 处理失败的内容\n\n" ++ tr.augmented).data = none →
      tr.stored = "# 处理失败的内容\n\n" ++ tr.augmented) := by
  have hstruct := allfail_step_struct retry api chunks i es tr hretry hfail hi htr
  have hatt : tr.attempts = retry := by rw [hstruct]
  have hstored : tr.stored =
      (extract_incomplete_sentence ("# 处理失败的内容\n\n" ++ tr.augmented)).1 := by
    conv_lhs => rw [hstruct]
  have hrec : tr.failedRec = some ⟨i, tr.augmented, es (retry - 1)⟩ := by
    conv_lhs => rw [hstruct]
  have hne : ("# 处理失败的内容\n\n" ++ tr.augmented) ≠ "" := by
    intro hcon
    have hd := congrArg String.data hcon
    rw [String.data_append] at hd
    simp [String.data] at hd
  refine ⟨hatt, hstored, hrec, ?_, process_chunks_sequentially_fst_length retry api chunks, ?_⟩
  · rw [process_chunks_sequentially_snd]
    refine List.mem_filterMap.mpr ⟨tr, ?_, hrec⟩
    rw [← htr]
    exact List.get_mem _ i hi
  · intro hnone
    rw [hstored]
    unfold extract_incomplete_sentence
    rw [if_neg hne, hnone]

/-- Counterexample for C3 as stated: when the raw chunk itself contains the
literal marker `[不完整句子: x]`, the stored output after retry exhaustion is
NOT the placeholder wrapping the input verbatim — extraction strips the
marker out of the placeholder. -/
theorem retry_exhaustion_literal_cex :
    ((processTrace 1 (fun _ _ => ApiResult.err "down") 0 "" ["see [不完整句子: x] done"]).map
        (fun st => st.stored)) = ["# 处理失败的内容\n\nsee  done"] ∧
    ((processTrace 1 (fun _ _ => ApiResult.err "down") 0 "" ["see [不完整句子: x] done"]).map
        (fun st => st.augmented)) = ["see [不完整句子: x] done"] ∧
    ("# 处理失败的内容\n\nsee  done" : String) ≠
      "# 处理失败的内容\n\n" ++ "see [不完整句子: x] done" := by
  refine ⟨by decide, by decide, by decide⟩

/-- Witness for the amended C3: chunk 1 fails on both of its 2 attempts while
chunk 0 succeeds; the record carries index 1, augmented input `y` and the
last error. -/
theorem retry_exhaustion_amended_witness :
    (0 < 2 ∧
      (processTrace 2 (fun i _ => if i = 1 then ApiResult.err "boom" else ApiResult.ok "fine.")
          0 "" ["x", "y"]).get ⟨1, by decide⟩ =
        ⟨"y", "# 处理失败的内容\n\ny", "", some ⟨1, "y", "boom"⟩, 2⟩) ∧
    ((⟨"y", "# 处理失败的内容\n\ny", "", some ⟨1, "y", "boom"⟩, 2⟩ : StepTrace).attempts = 2 ∧
      (⟨"y", "# 处理失败的内容\n\ny", "", some ⟨1, "y", "boom"⟩, 2⟩ : StepTrace).stored =
        (extract_incomplete_sentence ("# 处理失败的内容\n\n" ++
          (⟨"y", "# 处理失败的内容\n\ny", "", some ⟨1, "y", "boom"⟩, 2⟩ : StepTrace).augmented)).1 ∧
      (⟨"y", "# 处理失败的内容\n\ny", "", some ⟨1, "y", "boom"⟩, 2⟩ : StepTrace).failedRec =
        some ⟨1, (⟨"y", "# 处理失败的内容\n\ny", "", some ⟨1, "y", "boom"⟩, 2⟩ : StepTrace).augmented,
          (fun _ : Nat => "boom") (2 - 1)⟩ ∧
      (⟨1, (⟨"y", "# 处理失败的内容\n\ny", "", some ⟨1, "y", "boom"⟩, 2⟩ : StepTrace).augmented,
          (fun _ : Nat => "boom") (2 - 1)⟩ : FailedChunk) ∈
        (process_chunks_sequentially 2
          (fun i _ => if i = 1 then ApiResult.err "boom" else ApiResult.ok "fine.") ["x", "y"]).2 ∧
      (process_chunks_sequentially 2
          (fun i _ => if i = 1 then ApiResult.err "boom" else ApiResult.ok "fine.")
          ["x", "y"]).1.length = (["x", "y"] : List String).length ∧
      (findBracket '[' incompleteHead 1 ("# 处理失败的内容\n\n" ++
          (⟨"y", "# 处理失败的内容\n\ny", "", some ⟨1, "y", "boom"⟩, 2⟩ : StepTrace).augmented).data =
            none →
        (⟨"y", "# 处理失败的内容\n\ny", "", some ⟨1, "y", "boom"⟩, 2⟩ : StepTrace).stored =
          "# 处理失败的内容\n\n" ++
            (⟨"y", "# 处理失败的内容\n\ny", "", some ⟨1, "y", "boom"⟩, 2⟩ : StepTrace).augmented)) :=
  ⟨⟨by decide, by decide⟩,
    retry_exhaustion_amended 2
      (fun i _ => if i = 1 then ApiResult.err "boom" else ApiResult.ok "fine.") ["x", "y"] 1
      (fun _ => "boom") ⟨"y", "# 处理失败的内容\n\ny", "", some ⟨1, "y", "boom"⟩, 2⟩
      (by decide) (fun a _ => rfl) (by decide) (by decide)⟩

/-- C8 (amended): after a terminal failure at step `i`, the fragment entering
step `i+1` is whatever `extract_incomplete_sentence` finds in the failure
placeholder; it is the empty string whenever that extraction yields no
fragment — in particular whenever the augmented input contains no
incompleteness marker (but NOT in general, see the counterexample). -/
theorem failed_step_fragment_amended (retry : Nat) (api : Nat → Nat → ApiResult)
    (chunks : List String) (i : Nat) (es : Nat → String) (tr : StepTrace)
    (hretry : 0 < retry)
    (hfail : ∀ a, a < retry → api i a = ApiResult.err (es a))
    (hi : i < (processTrace retry api 0 "" chunks).length)
    (htr : (processTrace retry api 0 "" chunks).get ⟨i, hi⟩ = tr)
    (hclean : (extract_incomplete_sentence
      ("# 处理失败的内容\n\n" ++ tr.augmented)).2 = "") :
    tr.fragOut = "" := by
  have hstruct := allfail_step_struct retry api chunks i es tr hretry hfail hi htr
  have hfo : tr.fragOut =
      (extract_incomplete_sentence ("# 处理失败的内容\n\n" ++ tr.augmented)).2 := by
    conv_lhs => rw [hstruct]
  rw [hfo, hclean]

/-- Counterexample for C8 as stated: a raw chunk containing the literal
marker `[不完整句子: evil]` fails terminally at step 0, yet the fragment
entering step 1 is `evil`, not the empty string — step 1's augmented input
becomes `evil b`. -/
theorem failed_step_fragment_cex :
    ((processTrace 1 (fun _ _ => ApiResult.err "down") 0 "" ["[不完整句子: evil] x", "b"]).map
        (fun st => st.fragOut)) = ["evil", ""] ∧
    ((processTrace 1 (fun _ _ => ApiResult.err "down") 0 "" ["[不完整句子: evil] x", "b"]).map
        (fun st => st.failedRec.isSome)) = [true, true] ∧
    ((processTrace 1 (fun _ _ => ApiResult.err "down") 0 "" ["[不完整句子: evil] x", "b"]).map
        (fun st => st.augmented)) = ["[不完整句子: evil] x", "evil b"] ∧
    ("evil" : String) ≠ "" := by
  refine ⟨by decide, by decide, by decide, by decide⟩

/-- Witness for the amended C8: a marker-free chunk fails terminally and the
fragment entering the next step is empty. -/
theorem failed_step_fragment_amended_witness :
    (0 < 1 ∧
      (processTrace 1 (fun _ _ => ApiResult.err "boom") 0 "" ["a", "b"]).get ⟨0, by decide⟩ =
        ⟨"a", "# 处理失败的内容\n\na", "", some ⟨0, "a", "boom"⟩, 1⟩ ∧
      (extract_incomplete_sentence ("# 处理失败的内容\n\n" ++
        (⟨"a", "# 处理失败的内容\n\na", "", some ⟨0, "a", "boom"⟩, 1⟩ : StepTrace).augmented)).2 = "") ∧
    (⟨"a", "# 处理失败的内容\n\na", "", some ⟨0, "a", "boom"⟩, 1⟩ : StepTrace).fragOut = "" :=
  ⟨⟨by decide, by decide, by decide⟩,
    failed_step_fragment_amended 1 (fun _ _ => ApiResult.err "boom") ["a", "b"] 0
      (fun _ => "boom") ⟨"a", "# 处理失败的内容\n\na", "", some ⟨0, "a", "boom"⟩, 1⟩
      (by decide) (fun a _ => rfl) (by decide) (by decide) (by decide)⟩
